import Mathlib

/-!
Verification of the Rusthonian UUID module (`src/lib.rs`).

The module wraps the Rust `uuid` crate behind a Python class `PyUuid`.
The 128-bit identifier is stored as 16 big-endian bytes.  We embed a byte
as `Fin 256` and a UUID value as a 16-byte list, and translate the
operations of `src/lib.rs` (and, where `lib.rs` merely delegates to the
`uuid` crate whose sources are not part of this repository, a model of the
delegated operation written from the specification).
-/

set_option maxRecDepth 4000

/-- A byte, as stored in the 16-byte UUID buffer (`u8` in the source). -/
abbrev Byte := Fin 256

/-- A UUID value: exactly 16 bytes of big-endian storage
(`uuid::Uuid`, a wrapper around `[u8; 16]`). -/
abbrev Uuid := { l : List Byte // l.length = 16 }

/-- Big-endian value of a byte string: the unsigned integer obtained by
reading the bytes most-significant first (`u128::from_be_bytes`). -/
def beVal : List Byte → Nat
  | [] => 0
  | b :: bs => b.val * 256 ^ bs.length + beVal bs

/-- Big-endian encoding of a natural number into exactly `k` bytes, with the
length recorded in the type (`u128::to_be_bytes`, truncated to `k` bytes). -/
def natToBeBytesP : (k : Nat) → Nat → { l : List Byte // l.length = k }
  | 0, _ => ⟨[], rfl⟩
  | k + 1, n =>
      ⟨(natToBeBytesP k (n / 256)).val ++ [⟨n % 256, Nat.mod_lt _ (by norm_num)⟩],
        by simp [(natToBeBytesP k (n / 256)).property]⟩

/-- Big-endian encoding of a natural number into exactly `k` bytes. -/
def natToBeBytes (k n : Nat) : List Byte := (natToBeBytesP k n).val

/-- Three-way bytewise comparison, most-significant byte first: the order the
Rust `#[derive(Ord)]` on `uuid::Uuid`'s inner `[u8; 16]` produces, which the
source's `__lt__`/`__le__`/`__gt__`/`__ge__` expose. -/
def bytesCmp : List Byte → List Byte → Ordering
  | [], [] => .eq
  | [], _ :: _ => .lt
  | _ :: _, [] => .gt
  | a :: as, b :: bs =>
      if a.val < b.val then .lt
      else if b.val < a.val then .gt
      else bytesCmp as bs

/-- The lowercase hexadecimal digit for a value `0..15`, by codepoint
arithmetic (48 is `0`, 87 + 10 is `a`).
Modelled from the spec: the formatter emits lowercase hexadecimal only. -/
def hexDigit (n : Nat) : Char :=
  if n < 10 then Char.ofNat (48 + n)
  else if n < 16 then Char.ofNat (87 + n)
  else 'x'

/-- Hexadecimal digit value of a character, by codepoint arithmetic:
codepoints 48-57 are the digits, 97-102 the lowercase letters, and — as the
parser's accepted extension — 65-70 the uppercase letters.  `none` on any
other character. -/
def parseHexDigit (c : Char) : Option (Fin 16) :=
  if h1 : 48 ≤ c.toNat ∧ c.toNat ≤ 57 then some ⟨c.toNat - 48, by omega⟩
  else if h2 : 97 ≤ c.toNat ∧ c.toNat ≤ 102 then some ⟨c.toNat - 87, by omega⟩
  else if h3 : 65 ≤ c.toNat ∧ c.toNat ≤ 70 then some ⟨c.toNat - 55, by omega⟩
  else none

/-- Two lowercase hex characters per byte, high nibble first. -/
def hexChars : List Byte → List Char
  | [] => []
  | b :: bs => hexDigit (b.val / 16) :: hexDigit (b.val % 16) :: hexChars bs

/-- Canonical rendering of a UUID as a character list: the five hex groups of
4, 2, 2, 2 and 6 bytes (8-4-4-4-12 hex digits) joined by hyphens.
Modelled from the spec: `uuid::Uuid`'s `Display`, which the source's
`__str__` returns via `to_string()`. -/
def Uuid.toCanonical (u : Uuid) : List Char :=
  hexChars (u.val.take 4) ++
    ('-' :: (hexChars ((u.val.drop 4).take 2) ++
      ('-' :: (hexChars ((u.val.drop 6).take 2) ++
        ('-' :: (hexChars ((u.val.drop 8).take 2) ++
          ('-' :: hexChars (u.val.drop 10))))))))

/-- Canonical lowercase hyphenated string form of a UUID. -/
def Uuid.toCanonicalString (u : Uuid) : String :=
  String.mk (Uuid.toCanonical u)

/-- Consume one hyphen. -/
def expectHyphen : List Char → Option (List Char)
  | '-' :: cs => some cs
  | _ => none

/-- Read `k` bytes written as `2 * k` hex characters, returning the bytes and
the remaining characters. -/
def readHexBytes : Nat → List Char → Option (List Byte × List Char)
  | 0, cs => some ([], cs)
  | k + 1, c1 :: c2 :: cs =>
      match parseHexDigit c1, parseHexDigit c2 with
      | some hi, some lo =>
          match readHexBytes k cs with
          | some (bs, rest) =>
              some (⟨hi.val * 16 + lo.val, by
                have h1 := hi.isLt
                have h2 := lo.isLt
                omega⟩ :: bs, rest)
          | none => none
      | _, _ => none
  | _ + 1, [] => none
  | _ + 1, [_] => none

/-- Parse the hyphenated UUID text form `xxxxxxxx-xxxx-xxxx-xxxx-xxxxxxxxxxxx`.
Modelled from the spec: `uuid::Uuid::from_str` as used by the source's
constructor, `parse_str` and `is_valid`; the spec fixes the canonical
8-4-4-4-12 hyphenated form (with uppercase hex digits as the allowed
extension) and leaves further input forms unspecified. -/
def parseCanonical (cs : List Char) : Option Uuid :=
  match readHexBytes 4 cs with
  | some (g1, r1) =>
      match expectHyphen r1 with
      | some r2 =>
          match readHexBytes 2 r2 with
          | some (g2, r3) =>
              match expectHyphen r3 with
              | some r4 =>
                  match readHexBytes 2 r4 with
                  | some (g3, r5) =>
                      match expectHyphen r5 with
                      | some r6 =>
                          match readHexBytes 2 r6 with
                          | some (g4, r7) =>
                              match expectHyphen r7 with
                              | some r8 =>
                                  match readHexBytes 6 r8 with
                                  | some (g5, r9) =>
                                      match r9 with
                                      | [] =>
                                          if h : (g1 ++ g2 ++ g3 ++ g4 ++ g5).length = 16
                                          then some ⟨g1 ++ g2 ++ g3 ++ g4 ++ g5, h⟩
                                          else none
                                      | _ :: _ => none
                                  | none => none
                              | none => none
                          | none => none
                      | none => none
                  | none => none
              | none => none
          | none => none
      | none => none
  | none => none

/-- Parse a UUID from its string form.
Modelled from the spec: `uuid::Uuid::from_str`, failing with a descriptive
error on malformed text. -/
def Uuid.from_str (s : String) : Except String Uuid :=
  match parseCanonical s.toList with
  | some u => Except.ok u
  | none => Except.error "invalid UUID string"

/-- Construct a UUID from an unsigned 128-bit integer, rendered as 16
big-endian bytes.  Modelled from the spec: `uuid::Uuid::from_u128`, which
the source's `PyUuid::from_u128` wraps. -/
def Uuid.from_u128 (value : Nat) : Uuid :=
  ⟨natToBeBytes 16 value, (natToBeBytesP 16 value).property⟩

/-- The unsigned 128-bit integer value of a UUID (big-endian interpretation
of the 16 bytes).  Modelled from the spec: `uuid::Uuid::as_u128`, which the
source's `PyUuid::as_u128` wraps. -/
def Uuid.as_u128 (u : Uuid) : Nat := beVal u.val

namespace PyUuid

/-- Source `PyUuid::from_bytes` (src/lib.rs): succeeds only on exactly 16
bytes, copied verbatim; any other length fails with the fixed message. -/
def from_bytes (bytes : List Byte) : Except String Uuid :=
  if h : bytes.length = 16 then Except.ok ⟨bytes, h⟩
  else Except.error "UUID must be exactly 16 bytes"

/-- Source `PyUuid::from_u128`. -/
def from_u128 (value : Nat) : Uuid := Uuid.from_u128 value

/-- Source `PyUuid::from_u64_pair`: the 128-bit value with `high` in the
upper 64 bits and `low` in the lower 64 bits, as 16 big-endian bytes.
The crate builds `(high as u128) << 64 | low`, which for `low < 2^64`
equals `high * 2^64 + low`. -/
def from_u64_pair (high low : Nat) : Uuid := Uuid.from_u128 (high * 2 ^ 64 + low)

/-- Source `PyUuid::__str__`: the canonical lowercase hyphenated rendering. -/
def str (u : Uuid) : String := Uuid.toCanonicalString u

/-- Source `PyUuid::bytes`: the raw 16-byte storage. -/
def bytes (u : Uuid) : List Byte := u.val

/-- Source `PyUuid::as_u128`. -/
def as_u128 (u : Uuid) : Nat := Uuid.as_u128 u

/-- Source `PyUuid::as_u64_pair`: first 8 bytes as `high`, last 8 as `low`,
each read big-endian. -/
def as_u64_pair (u : Uuid) : Nat × Nat := (beVal (u.val.take 8), beVal (u.val.drop 8))

/-- Source `PyUuid::version`: the stub in src/lib.rs, which unconditionally
returns no version (its body is `Ok(None)` under a TODO comment). -/
def version (_ : Uuid) : Option Nat := none

/-- Variant classification of byte 8, by its most-significant bits: the
crate's `get_variant` composed with the source's match arms mapping the
variant to its name.  Modelled from the spec: top bit `0` is NCS, top bits
`10` are RFC4122, `110` Microsoft, `111` Future. -/
def variantOfByte (b : Nat) : String :=
  if b / 128 = 0 then "NCS"
  else if b / 64 = 2 then "RFC4122"
  else if b / 32 = 6 then "Microsoft"
  else "Future"

/-- Source `PyUuid::variant`. -/
def variant (u : Uuid) : String := variantOfByte (u.val.getD 8 0).val

/-- Source `PyUuid::__eq__`: bytewise equality of the storage. -/
def eq (a b : Uuid) : Bool := decide (a.val = b.val)

/-- Source `PyUuid::__lt__`. -/
def lt (a b : Uuid) : Bool := decide (bytesCmp a.val b.val = Ordering.lt)

/-- Source `PyUuid::__le__` (`cmp` is not `Greater`). -/
def le (a b : Uuid) : Bool := decide (¬ bytesCmp a.val b.val = Ordering.gt)

/-- Source `PyUuid::__gt__`. -/
def gt (a b : Uuid) : Bool := decide (bytesCmp a.val b.val = Ordering.gt)

/-- Source `PyUuid::__ge__` (`cmp` is not `Less`). -/
def ge (a b : Uuid) : Bool := decide (¬ bytesCmp a.val b.val = Ordering.lt)

end PyUuid

/-- Source `parse_str` (and the `PyUuid` constructor, which parses the same
way): parse the canonical text form. -/
def parse_str (s : String) : Except String Uuid := Uuid.from_str s

/-- Source `is_valid`: whether parsing the string succeeds. -/
def is_valid (s : String) : Bool := (Uuid.from_str s).isOk

/-- Force the high nibble of a byte to `0100` (value 4), keeping the low
nibble: `(b & 0x0F) | 0x40`. -/
def setVersionNibble (b : Byte) : Byte := ⟨b.val % 16 + 64, by omega⟩

/-- Force the two high bits of a byte to `10`, keeping the low six bits:
`(b & 0x3F) | 0x80`. -/
def setVariantBits (b : Byte) : Byte := ⟨b.val % 64 + 128, by omega⟩

/-- Modelled from the spec: the source's `new_v4` delegates to
`uuid::Uuid::new_v4`, which draws 16 random bytes and forces the version
nibble of byte 6 to `0100` and the variant bits of byte 8 to `10`.  The
random draw is passed here explicitly as `r`. -/
def new_v4 (r : List Byte) (h : r.length = 16) : Uuid :=
  ⟨(r.set 6 (setVersionNibble (r.getD 6 0))).set 8 (setVariantBits (r.getD 8 0)),
    by simp [h]⟩

/-- Modelled from the spec: the corrected version extraction the spec
prescribes for `PyUuid::version` (the source body is a stub) — the high
nibble of byte 6 when it lies in 1 through 8, otherwise no version. -/
def version_spec (u : Uuid) : Option Nat :=
  let v := (u.val.getD 6 0).val / 16
  if 1 ≤ v ∧ v ≤ 8 then some v else none

/-- A 16-byte test value: all zero except byte `i`, which is `b`. -/
def uuidWithByte (i : Nat) (b : Byte) : Uuid :=
  ⟨(List.replicate 16 (0 : Byte)).set i b, by simp⟩

/-- Whether a character is a lowercase hexadecimal digit. -/
def isLowerHex (c : Char) : Bool :=
  ('0' ≤ c && c ≤ '9') || ('a' ≤ c && c ≤ 'f')

theorem natToBeBytes_zero (n : Nat) : natToBeBytes 0 n = [] := rfl

theorem natToBeBytes_succ (k n : Nat) :
    natToBeBytes (k + 1) n =
      natToBeBytes k (n / 256) ++ [⟨n % 256, Nat.mod_lt _ (by norm_num)⟩] := rfl

theorem beVal_lt (bs : List Byte) : beVal bs < 256 ^ bs.length := by
  induction bs with
  | nil => simp [beVal]
  | cons b bs ih =>
      have hb : b.val < 256 := b.isLt
      simp only [beVal, List.length_cons, pow_succ]
      calc b.val * 256 ^ bs.length + beVal bs
          < b.val * 256 ^ bs.length + 256 ^ bs.length := by omega
        _ = (b.val + 1) * 256 ^ bs.length := by ring
        _ ≤ 256 * 256 ^ bs.length := by
            exact Nat.mul_le_mul_right _ (by omega)
        _ = 256 ^ bs.length * 256 := by ring

theorem length_natToBeBytes (k n : Nat) : (natToBeBytes k n).length = k :=
  (natToBeBytesP k n).property

theorem beVal_append_singleton (l : List Byte) (b : Byte) :
    beVal (l ++ [b]) = beVal l * 256 + b.val := by
  induction l with
  | nil => simp [beVal]
  | cons a l ih =>
      simp only [List.cons_append, beVal, ih, List.append_eq, List.length_append,
        List.length_cons, List.length_nil]
      ring

theorem beVal_natToBeBytes (k n : Nat) : beVal (natToBeBytes k n) = n % 256 ^ k := by
  induction k generalizing n with
  | zero => simp [natToBeBytes_zero, beVal, Nat.mod_one]
  | succ k ih =>
      simp only [natToBeBytes_succ, beVal_append_singleton, ih]
      have h : 256 ^ (k + 1) = 256 * 256 ^ k := by ring
      rw [h, Nat.mod_mul]
      ring

theorem natToBeBytes_beVal (l : List Byte) : natToBeBytes l.length (beVal l) = l := by
  induction l using List.reverseRecOn with
  | nil => rfl
  | append_singleton l b ih =>
      have hb : b.val < 256 := b.isLt
      simp only [List.length_append, List.length_cons, List.length_nil,
        beVal_append_singleton, natToBeBytes_succ]
      have hdiv : (beVal l * 256 + b.val) / 256 = beVal l := by
        omega
      have hmod : (beVal l * 256 + b.val) % 256 = b.val := by
        omega
      rw [hdiv, ih]
      congr 1
      simp [Fin.ext_iff, hmod]

theorem natToBeBytes_split (k : Nat) :
    ∀ j a b : Nat, b < 256 ^ k →
      natToBeBytes (j + k) (a * 256 ^ k + b) = natToBeBytes j a ++ natToBeBytes k b := by
  induction k with
  | zero =>
      intro j a b hb
      interval_cases b
      simp [natToBeBytes_zero]
  | succ k ih =>
      intro j a b hb
      have h1 : j + (k + 1) = (j + k) + 1 := by omega
      rw [h1]
      simp only [natToBeBytes_succ]
      obtain ⟨c, hc⟩ : ∃ c, a * 256 ^ k = c := ⟨_, rfl⟩
      have hX : a * 256 ^ (k + 1) + b = c * 256 + b := by rw [← hc]; ring
      have hdiv : (a * 256 ^ (k + 1) + b) / 256 = a * 256 ^ k + b / 256 := by
        rw [hX, hc]
        omega
      have hmod : (a * 256 ^ (k + 1) + b) % 256 = b % 256 := by
        rw [hX]
        omega
      have hb' : b / 256 < 256 ^ k := by
        rw [Nat.div_lt_iff_lt_mul (by norm_num)]
        calc b < 256 ^ (k + 1) := hb
          _ = 256 ^ k * 256 := by ring
      rw [hdiv, ih j a (b / 256) hb', List.append_assoc]
      congr 2
      simp [Fin.ext_iff, hmod]

theorem bytesCmp_eq_iff : ∀ as bs : List Byte, bytesCmp as bs = .eq ↔ as = bs := by
  intro as
  induction as with
  | nil =>
      intro bs
      cases bs <;> simp [bytesCmp]
  | cons a as ih =>
      intro bs
      cases bs with
      | nil => simp [bytesCmp]
      | cons b bs =>
          simp only [bytesCmp]
          by_cases h1 : a.val < b.val
          · simp only [if_pos h1]
            constructor
            · intro h; cases h
            · intro h
              injection h with h2 h3
              subst h2
              omega
          · by_cases h2 : b.val < a.val
            · simp only [if_neg h1, if_pos h2]
              constructor
              · intro h; cases h
              · intro h
                injection h with h3 h4
                subst h3
                omega
            · have hab : a = b := Fin.ext (by omega)
              subst hab
              simp [if_neg h1, if_neg h2, ih bs]

theorem bytesCmp_lt_iff :
    ∀ as bs : List Byte, as.length = bs.length →
      (bytesCmp as bs = .lt ↔ beVal as < beVal bs) := by
  intro as
  induction as with
  | nil =>
      intro bs hl
      cases bs with
      | nil => simp [bytesCmp, beVal]
      | cons b bs => simp at hl
  | cons a as ih =>
      intro bs hl
      cases bs with
      | nil => simp at hl
      | cons b bs =>
          have hn : as.length = bs.length := by
            simpa using hl
          have hx : beVal as < 256 ^ as.length := beVal_lt as
          rw [hn] at hx
          have hy : beVal bs < 256 ^ bs.length := beVal_lt bs
          simp only [bytesCmp, beVal, hn]
          by_cases h1 : a.val < b.val
          · simp only [if_pos h1]
            constructor
            · intro _
              calc a.val * 256 ^ bs.length + beVal as
                  < a.val * 256 ^ bs.length + 256 ^ bs.length := by
                    omega
                _ = (a.val + 1) * 256 ^ bs.length := by ring
                _ ≤ b.val * 256 ^ bs.length := Nat.mul_le_mul_right _ (by omega)
                _ ≤ b.val * 256 ^ bs.length + beVal bs := Nat.le_add_right _ _
            · intro _; trivial
          · by_cases h2 : b.val < a.val
            · simp only [if_neg h1, if_pos h2]
              constructor
              · intro h; cases h
              · intro hcon
                have : b.val * 256 ^ bs.length + beVal bs
                    < a.val * 256 ^ bs.length + beVal as := by
                  calc b.val * 256 ^ bs.length + beVal bs
                      < b.val * 256 ^ bs.length + 256 ^ bs.length := by omega
                    _ = (b.val + 1) * 256 ^ bs.length := by ring
                    _ ≤ a.val * 256 ^ bs.length := Nat.mul_le_mul_right _ (by omega)
                    _ ≤ a.val * 256 ^ bs.length + beVal as := Nat.le_add_right _ _
                omega
            · have hab : a = b := Fin.ext (by omega)
              subst hab
              simp only [if_neg h1, if_neg h2, ih bs hn]
              omega

theorem bytesCmp_swap : ∀ as bs : List Byte, bytesCmp bs as = (bytesCmp as bs).swap := by
  intro as
  induction as with
  | nil => intro bs; cases bs <;> rfl
  | cons a as ih =>
      intro bs
      cases bs with
      | nil => rfl
      | cons b bs =>
          by_cases h1 : a.val < b.val
          · have h2 : ¬ b.val < a.val := by omega
            simp [bytesCmp, h1, h2, Ordering.swap]
          · by_cases h2 : b.val < a.val
            · simp [bytesCmp, h1, h2, Ordering.swap]
            · simp [bytesCmp, h1, h2, ih bs]

theorem bytesCmp_gt_iff (as bs : List Byte) (hl : as.length = bs.length) :
    bytesCmp as bs = .gt ↔ beVal bs < beVal as := by
  rw [← bytesCmp_lt_iff bs as hl.symm, bytesCmp_swap bs as]
  cases bytesCmp bs as <;> decide

theorem parseHexDigit_hexDigit : ∀ d : Fin 16, parseHexDigit (hexDigit d.val) = some d := by
  decide

theorem readHexBytes_hexChars (n : Nat) (bs : List Byte) (rest : List Char)
    (h : bs.length = n) :
    readHexBytes n (hexChars bs ++ rest) = some (bs, rest) := by
  subst h
  induction bs generalizing rest with
  | nil => simp [hexChars, readHexBytes]
  | cons b bs ih =>
      have hd : b.val / 16 < 16 := by
        have := b.isLt
        omega
      have hm : b.val % 16 < 16 := by
        omega
      simp only [hexChars, List.cons_append, List.length_cons, readHexBytes]
      rw [parseHexDigit_hexDigit ⟨b.val / 16, hd⟩, parseHexDigit_hexDigit ⟨b.val % 16, hm⟩]
      have ih' := ih rest
      simp only [List.append_eq] at ih' ⊢
      rw [ih']
      simp only [Option.some.injEq, Prod.mk.injEq, List.cons.injEq, Fin.ext_iff]
      exact ⟨⟨by omega, by trivial⟩, by trivial⟩

theorem take_drop_split (l : List Byte) :
    l.take 4 ++ ((l.drop 4).take 2 ++ ((l.drop 6).take 2 ++ ((l.drop 8).take 2 ++ l.drop 10))) = l := by
  have h6 : (l.drop 4).drop 2 = l.drop 6 := by
    rw [List.drop_drop]
  have h8 : (l.drop 6).drop 2 = l.drop 8 := by
    rw [List.drop_drop]
  have h10 : (l.drop 8).drop 2 = l.drop 10 := by
    rw [List.drop_drop]
  calc l.take 4 ++ ((l.drop 4).take 2 ++ ((l.drop 6).take 2 ++ ((l.drop 8).take 2 ++ l.drop 10)))
      = l.take 4 ++ ((l.drop 4).take 2 ++ ((l.drop 6).take 2 ++ ((l.drop 8).take 2 ++ (l.drop 8).drop 2))) := by
        rw [h10]
    _ = l.take 4 ++ ((l.drop 4).take 2 ++ ((l.drop 6).take 2 ++ l.drop 8)) := by
        rw [List.take_append_drop]
    _ = l.take 4 ++ ((l.drop 4).take 2 ++ ((l.drop 6).take 2 ++ (l.drop 6).drop 2)) := by
        rw [h8]
    _ = l.take 4 ++ ((l.drop 4).take 2 ++ l.drop 6) := by
        rw [List.take_append_drop]
    _ = l.take 4 ++ ((l.drop 4).take 2 ++ (l.drop 4).drop 2) := by
        rw [h6]
    _ = l.take 4 ++ l.drop 4 := by
        rw [List.take_append_drop]
    _ = l := List.take_append_drop 4 l

theorem parseCanonical_groups (g1 g2 g3 g4 g5 : List Byte)
    (h1 : g1.length = 4) (h2 : g2.length = 2) (h3 : g3.length = 2)
    (h4 : g4.length = 2) (h5 : g5.length = 6)
    (hlen : (g1 ++ g2 ++ g3 ++ g4 ++ g5).length = 16) :
    parseCanonical
      (hexChars g1 ++
        ('-' :: (hexChars g2 ++
          ('-' :: (hexChars g3 ++
            ('-' :: (hexChars g4 ++
              ('-' :: hexChars g5)))))))) = some ⟨g1 ++ g2 ++ g3 ++ g4 ++ g5, hlen⟩ := by
  have e5 : hexChars g5 ++ ([] : List Char) = hexChars g5 := by simp
  simp only [parseCanonical]
  rw [readHexBytes_hexChars 4 g1 _ h1]
  simp only [expectHyphen]
  rw [readHexBytes_hexChars 2 g2 _ h2]
  simp only [expectHyphen]
  rw [readHexBytes_hexChars 2 g3 _ h3]
  simp only [expectHyphen]
  rw [readHexBytes_hexChars 2 g4 _ h4]
  simp only [expectHyphen]
  rw [← e5, readHexBytes_hexChars 6 g5 _ h5]
  simp only [dif_pos hlen]

theorem parseCanonical_toCanonical (u : Uuid) :
    parseCanonical (Uuid.toCanonical u) = some u := by
  obtain ⟨l, hl⟩ := u
  have h1 : (l.take 4).length = 4 := by
    rw [List.length_take, hl]; norm_num
  have h2 : ((l.drop 4).take 2).length = 2 := by
    rw [List.length_take, List.length_drop, hl]; norm_num
  have h3 : ((l.drop 6).take 2).length = 2 := by
    rw [List.length_take, List.length_drop, hl]; norm_num
  have h4 : ((l.drop 8).take 2).length = 2 := by
    rw [List.length_take, List.length_drop, hl]; norm_num
  have h5 : (l.drop 10).length = 6 := by
    rw [List.length_drop, hl]
  have hsplit : l.take 4 ++ (l.drop 4).take 2 ++ (l.drop 6).take 2 ++ (l.drop 8).take 2 ++ l.drop 10 = l := by
    have h := take_drop_split l
    calc l.take 4 ++ (l.drop 4).take 2 ++ (l.drop 6).take 2 ++ (l.drop 8).take 2 ++ l.drop 10
        = l.take 4 ++ ((l.drop 4).take 2 ++ ((l.drop 6).take 2 ++ ((l.drop 8).take 2 ++ l.drop 10))) := by
          simp [List.append_assoc]
      _ = l := h
  have hlen : (l.take 4 ++ (l.drop 4).take 2 ++ (l.drop 6).take 2 ++ (l.drop 8).take 2 ++ l.drop 10).length = 16 := by
    rw [hsplit, hl]
  show parseCanonical
      (hexChars (l.take 4) ++
        ('-' :: (hexChars ((l.drop 4).take 2) ++
          ('-' :: (hexChars ((l.drop 6).take 2) ++
            ('-' :: (hexChars ((l.drop 8).take 2) ++
              ('-' :: hexChars (l.drop 10))))))))) = some ⟨l, hl⟩
  rw [parseCanonical_groups (l.take 4) ((l.drop 4).take 2) ((l.drop 6).take 2)
    ((l.drop 8).take 2) (l.drop 10) h1 h2 h3 h4 h5 hlen]
  exact congrArg some (Subtype.ext hsplit)

/-- C1: the claim says `version()` returns the high nibble of byte 6 as the
version when that nibble is 1 through 8 (so 4 for byte 6 = 0x40, 1 for
0x10, and no version for the nil UUID).  The source's `PyUuid::version` is
a stub returning no version for every value, diverging from the claim; the
spec-prescribed extraction `version_spec` gives the claimed answers. -/
theorem version_stub_diverges :
    (∀ u : Uuid, PyUuid.version u = none)
  ∧ PyUuid.version (uuidWithByte 6 (0x40 : Byte)) = none
  ∧ version_spec (uuidWithByte 6 (0x40 : Byte)) = some 4
  ∧ version_spec (uuidWithByte 6 (0x10 : Byte)) = some 1
  ∧ version_spec (uuidWithByte 6 (0x00 : Byte)) = none :=
  ⟨fun _ => rfl, rfl, by decide, by decide, by decide⟩

/-- C2: `from_bytes` succeeds exactly on inputs of length 16, and on success
the stored 16-byte value is the input verbatim. -/
theorem from_bytes_length_iff (bs : List Byte) :
    ((PyUuid.from_bytes bs).isOk = true ↔ bs.length = 16)
  ∧ ∀ u : Uuid, PyUuid.from_bytes bs = Except.ok u → u.val = bs := by
  constructor
  · by_cases h : bs.length = 16
    · simp [PyUuid.from_bytes, h, Except.isOk, Except.toBool]
    · simp [PyUuid.from_bytes, h, Except.isOk, Except.toBool]
  · intro u hu
    by_cases h : bs.length = 16
    · simp only [PyUuid.from_bytes, dif_pos h] at hu
      injection hu with h2
      rw [← h2]
    · simp only [PyUuid.from_bytes, dif_neg h] at hu
      cases hu

/-- Witness for C2 at a concrete 16-byte input. -/
theorem from_bytes_length_iff_witness :
    (PyUuid.from_bytes (List.replicate 16 (0 : Byte))).isOk = true :=
  (from_bytes_length_iff (List.replicate 16 0)).1.mpr (by simp)

/-- C3 counterexample: on a 3-byte input the error is the fixed string
"UUID must be exactly 16 bytes", which does not contain the digit 3 and
therefore does not carry the actual length received. -/
theorem from_bytes_error_counterexample :
    PyUuid.from_bytes (List.replicate 3 (0 : Byte)) =
      Except.error "UUID must be exactly 16 bytes"
  ∧ ¬ ('3' ∈ ("UUID must be exactly 16 bytes").toList) := by
  constructor
  · rfl
  · decide

/-- C3 amended: for every input whose length is not 16, `from_bytes` fails
with the fixed message "UUID must be exactly 16 bytes", which describes the
requirement but does not include the actual length received. -/
theorem from_bytes_error_message (bs : List Byte) (h : ¬ bs.length = 16) :
    PyUuid.from_bytes bs = Except.error "UUID must be exactly 16 bytes" := by
  simp [PyUuid.from_bytes, h]

/-- Witness for the amended C3 at a concrete empty input. -/
theorem from_bytes_error_message_witness :
    PyUuid.from_bytes ([] : List Byte) = Except.error "UUID must be exactly 16 bytes" :=
  from_bytes_error_message [] (by decide)

/-- C4: for every value V, parsing its canonical text rendering returns V,
constructing from its 16-byte rendering returns V, and constructing from
its unsigned 128-bit integer rendering returns V. -/
theorem uuid_roundtrips (u : Uuid) :
    parse_str (PyUuid.str u) = Except.ok u
  ∧ PyUuid.from_bytes (PyUuid.bytes u) = Except.ok u
  ∧ PyUuid.from_u128 (PyUuid.as_u128 u) = u := by
  refine ⟨?_, ?_, ?_⟩
  · show Uuid.from_str (Uuid.toCanonicalString u) = Except.ok u
    have ht : (Uuid.toCanonicalString u).toList = Uuid.toCanonical u := rfl
    simp only [Uuid.from_str, ht, parseCanonical_toCanonical]
  · show PyUuid.from_bytes u.val = Except.ok u
    simp only [PyUuid.from_bytes, dif_pos u.property]
  · obtain ⟨l, hl⟩ := u
    apply Subtype.ext
    show natToBeBytes 16 (beVal l) = l
    have h := natToBeBytes_beVal l
    rw [hl] at h
    exact h

/-- C10: constructing from a 64-bit high/low pair and reading the pair back
is the identity, and the storage is `high` big-endian in the first 8 bytes
and `low` big-endian in the last 8 bytes. -/
theorem u64_pair_roundtrip (high low : Nat) (hh : high < 2 ^ 64) (hl : low < 2 ^ 64) :
    PyUuid.as_u64_pair (PyUuid.from_u64_pair high low) = (high, low)
  ∧ (PyUuid.from_u64_pair high low).val.take 8 = natToBeBytes 8 high
  ∧ (PyUuid.from_u64_pair high low).val.drop 8 = natToBeBytes 8 low := by
  have hpow : (2 : Nat) ^ 64 = 256 ^ 8 := by norm_num
  have hl' : low < 256 ^ 8 := by rw [← hpow]; exact hl
  have hval : (PyUuid.from_u64_pair high low).val = natToBeBytes 8 high ++ natToBeBytes 8 low := by
    show natToBeBytes 16 (high * 2 ^ 64 + low) = natToBeBytes 8 high ++ natToBeBytes 8 low
    have h16 : (16 : Nat) = 8 + 8 := by norm_num
    rw [h16, hpow, natToBeBytes_split 8 8 high low hl']
  have htake : (PyUuid.from_u64_pair high low).val.take 8 = natToBeBytes 8 high := by
    rw [hval]
    exact List.take_left' (length_natToBeBytes 8 high)
  have hdrop : (PyUuid.from_u64_pair high low).val.drop 8 = natToBeBytes 8 low := by
    rw [hval]
    exact List.drop_left' (length_natToBeBytes 8 high)
  refine ⟨?_, htake, hdrop⟩
  show (beVal ((PyUuid.from_u64_pair high low).val.take 8),
        beVal ((PyUuid.from_u64_pair high low).val.drop 8)) = (high, low)
  rw [htake, hdrop, beVal_natToBeBytes, beVal_natToBeBytes]
  rw [Nat.mod_eq_of_lt (by rw [← hpow]; exact hh), Nat.mod_eq_of_lt hl']

/-- Witness for C10 at the concrete pair (1, 2). -/
theorem u64_pair_roundtrip_witness :
    PyUuid.as_u64_pair (PyUuid.from_u64_pair 1 2) = (1, 2) :=
  (u64_pair_roundtrip 1 2 (by norm_num) (by norm_num)).1

/-- C5: for every pair of values exactly one of less / equal / greater holds,
less-or-equal and greater-or-equal agree with that single total order, and
the order coincides with unsigned big-endian 128-bit integer order of the
storage. -/
theorem ordering_total (a b : Uuid) :
    ((PyUuid.lt a b = true ∧ PyUuid.eq a b = false ∧ PyUuid.gt a b = false)
      ∨ (PyUuid.lt a b = false ∧ PyUuid.eq a b = true ∧ PyUuid.gt a b = false)
      ∨ (PyUuid.lt a b = false ∧ PyUuid.eq a b = false ∧ PyUuid.gt a b = true))
  ∧ (PyUuid.le a b = true ↔ (PyUuid.lt a b = true ∨ PyUuid.eq a b = true))
  ∧ (PyUuid.ge a b = true ↔ (PyUuid.gt a b = true ∨ PyUuid.eq a b = true))
  ∧ (PyUuid.lt a b = true ↔ PyUuid.as_u128 a < PyUuid.as_u128 b)
  ∧ (PyUuid.eq a b = true ↔ a = b) := by
  have hlen : a.val.length = b.val.length := by rw [a.property, b.property]
  have hlt := bytesCmp_lt_iff a.val b.val hlen
  have hgt := bytesCmp_gt_iff a.val b.val hlen
  have heq := bytesCmp_eq_iff a.val b.val
  simp only [PyUuid.lt, PyUuid.le, PyUuid.gt, PyUuid.ge, PyUuid.eq, PyUuid.as_u128,
    Uuid.as_u128, decide_eq_true_eq, decide_eq_false_iff_not]
  rcases hc : bytesCmp a.val b.val with _ | _ | _
  · have hv : beVal a.val < beVal b.val := hlt.mp hc
    have hne : ¬ a.val = b.val := by
      intro h
      rw [heq.mpr h] at hc
      exact absurd hc (by decide)
    have hne' : ¬ a = b := fun h => hne (congrArg Subtype.val h)
    simp [hv, hne, hne']
  · have hv : a.val = b.val := heq.mp hc
    have hv' : a = b := Subtype.ext hv
    subst hv'
    simp
  · have hv : beVal b.val < beVal a.val := hgt.mp hc
    have hne : ¬ a.val = b.val := by
      intro h
      rw [heq.mpr h] at hc
      exact absurd hc (by decide)
    have hne' : ¬ a = b := fun h => hne (congrArg Subtype.val h)
    have hnv : ¬ beVal a.val < beVal b.val := by omega
    simp [hv, hne, hne', hnv]

theorem getD_set_ne (l : List Byte) (i j : Nat) (x d : Byte) (h : ¬ i = j) :
    (l.set i x).getD j d = l.getD j d := by
  induction l generalizing i j with
  | nil => rfl
  | cons a l ih =>
      cases i with
      | zero =>
          cases j with
          | zero => exact absurd rfl h
          | succ j => rfl
      | succ i =>
          cases j with
          | zero => rfl
          | succ j => exact ih i j (fun he => h (by rw [he]))

theorem getD_set_self (l : List Byte) (i : Nat) (x d : Byte) (h : i < l.length) :
    (l.set i x).getD i d = x := by
  induction l generalizing i with
  | nil => simp at h
  | cons a l ih =>
      cases i with
      | zero => rfl
      | succ i => exact ih i (by simpa using h)

/-- C6: the variant classification is determined by the top bits of byte 8 —
top bit 0 is NCS, top bits 10 are RFC4122, top bits 110 are Microsoft, top
bits 111 are Future — and the four boundary bytes 0x00, 0x80, 0xC0, 0xE0
classify as NCS, RFC4122, Microsoft and Future respectively. -/
theorem variant_classification (u : Uuid) :
    ((u.val.getD 8 0).val / 128 = 0 → PyUuid.variant u = "NCS")
  ∧ ((u.val.getD 8 0).val / 64 = 2 → PyUuid.variant u = "RFC4122")
  ∧ ((u.val.getD 8 0).val / 32 = 6 → PyUuid.variant u = "Microsoft")
  ∧ ((u.val.getD 8 0).val / 32 = 7 → PyUuid.variant u = "Future")
  ∧ PyUuid.variant (uuidWithByte 8 (0x00 : Byte)) = "NCS"
  ∧ PyUuid.variant (uuidWithByte 8 (0x80 : Byte)) = "RFC4122"
  ∧ PyUuid.variant (uuidWithByte 8 (0xC0 : Byte)) = "Microsoft"
  ∧ PyUuid.variant (uuidWithByte 8 (0xE0 : Byte)) = "Future" := by
  refine ⟨?_, ?_, ?_, ?_, by decide, by decide, by decide, by decide⟩
  · intro h
    show PyUuid.variantOfByte (u.val.getD 8 0).val = "NCS"
    unfold PyUuid.variantOfByte
    rw [if_pos h]
  · intro h
    have h1 : ¬ ((u.val.getD 8 0).val / 128 = 0) := by omega
    show PyUuid.variantOfByte (u.val.getD 8 0).val = "RFC4122"
    unfold PyUuid.variantOfByte
    rw [if_neg h1, if_pos h]
  · intro h
    have h1 : ¬ ((u.val.getD 8 0).val / 128 = 0) := by omega
    have h2 : ¬ ((u.val.getD 8 0).val / 64 = 2) := by omega
    show PyUuid.variantOfByte (u.val.getD 8 0).val = "Microsoft"
    unfold PyUuid.variantOfByte
    rw [if_neg h1, if_neg h2, if_pos h]
  · intro h
    have h1 : ¬ ((u.val.getD 8 0).val / 128 = 0) := by omega
    have h2 : ¬ ((u.val.getD 8 0).val / 64 = 2) := by omega
    have h3 : ¬ ((u.val.getD 8 0).val / 32 = 6) := by omega
    show PyUuid.variantOfByte (u.val.getD 8 0).val = "Future"
    unfold PyUuid.variantOfByte
    rw [if_neg h1, if_neg h2, if_neg h3]

/-- Witness for C6 at the concrete RFC4122 boundary byte 0x80. -/
theorem variant_classification_witness :
    PyUuid.variant (uuidWithByte 8 (0x80 : Byte)) = "RFC4122" :=
  (variant_classification (uuidWithByte 8 (0x80 : Byte))).2.1 (by decide)

/-- C7: every value built by v4 generation — for every draw of 16 random
bytes — has version nibble 0100 in byte 6 and variant bits 10 in byte 8,
and the remaining 122 bits (all other bytes, the low nibble of byte 6 and
the low six bits of byte 8) are taken from the random draw. -/
theorem new_v4_invariants (r : List Byte) (h : r.length = 16) :
    ((new_v4 r h).val.getD 6 0).val / 16 = 4
  ∧ ((new_v4 r h).val.getD 8 0).val / 64 = 2
  ∧ version_spec (new_v4 r h) = some 4
  ∧ PyUuid.variant (new_v4 r h) = "RFC4122"
  ∧ ((new_v4 r h).val.getD 6 0).val % 16 = (r.getD 6 0).val % 16
  ∧ ((new_v4 r h).val.getD 8 0).val % 64 = (r.getD 8 0).val % 64
  ∧ ∀ i : Nat, i < 16 → ¬ i = 6 → ¬ i = 8 →
      (new_v4 r h).val.getD i 0 = r.getD i 0 := by
  have hg6 : (new_v4 r h).val.getD 6 0 = setVersionNibble (r.getD 6 0) := by
    show ((r.set 6 (setVersionNibble (r.getD 6 0))).set 8
      (setVariantBits (r.getD 8 0))).getD 6 0 = setVersionNibble (r.getD 6 0)
    rw [getD_set_ne _ 8 6 _ _ (by omega), getD_set_self _ 6 _ _ (by simp [h])]
  have hg8 : (new_v4 r h).val.getD 8 0 = setVariantBits (r.getD 8 0) := by
    show ((r.set 6 (setVersionNibble (r.getD 6 0))).set 8
      (setVariantBits (r.getD 8 0))).getD 8 0 = setVariantBits (r.getD 8 0)
    rw [getD_set_self _ 8 _ _ (by simp [h])]
  have h4 : ((r.getD 6 0).val % 16 + 64) / 16 = 4 := by omega
  refine ⟨?_, ?_, ?_, ?_, ?_, ?_, ?_⟩
  · rw [hg6]
    simp only [setVersionNibble]
    omega
  · rw [hg8]
    simp only [setVariantBits]
    omega
  · show (if 1 ≤ ((new_v4 r h).val.getD 6 0).val / 16 ∧ ((new_v4 r h).val.getD 6 0).val / 16 ≤ 8
      then some (((new_v4 r h).val.getD 6 0).val / 16) else none) = some 4
    rw [hg6]
    show (if 1 ≤ ((r.getD 6 0).val % 16 + 64) / 16 ∧ ((r.getD 6 0).val % 16 + 64) / 16 ≤ 8
      then some (((r.getD 6 0).val % 16 + 64) / 16) else none) = some 4
    rw [h4, if_pos (by norm_num)]
  · have hb64 : ((r.getD 8 0).val % 64 + 128) / 64 = 2 := by omega
    have hb128 : ¬ (((r.getD 8 0).val % 64 + 128) / 128 = 0) := by omega
    show PyUuid.variantOfByte ((new_v4 r h).val.getD 8 0).val = "RFC4122"
    rw [hg8]
    show PyUuid.variantOfByte ((r.getD 8 0).val % 64 + 128) = "RFC4122"
    unfold PyUuid.variantOfByte
    rw [if_neg hb128, if_pos hb64]
  · rw [hg6]
    simp only [setVersionNibble]
    omega
  · rw [hg8]
    simp only [setVariantBits]
    omega
  · intro i hi h6 h8
    show ((r.set 6 (setVersionNibble (r.getD 6 0))).set 8
      (setVariantBits (r.getD 8 0))).getD i 0 = r.getD i 0
    rw [getD_set_ne _ 8 i _ _ (fun he => h8 he.symm),
      getD_set_ne _ 6 i _ _ (fun he => h6 he.symm)]

/-- Witness for C7 at the all-zero random draw. -/
theorem new_v4_invariants_witness :
    version_spec (new_v4 (List.replicate 16 (0 : Byte)) (by simp)) = some 4 :=
  (new_v4_invariants (List.replicate 16 0) (by simp)).2.2.1

/-- C8: `is_valid` is true exactly when parsing the string succeeds; in
particular it is false on "not-a-uuid" and true on the DNS namespace
rendering. -/
theorem is_valid_iff (s : String) :
    (is_valid s = true ↔ ∃ u : Uuid, parse_str s = Except.ok u)
  ∧ is_valid "not-a-uuid" = false
  ∧ is_valid "6ba7b810-9dad-11d1-80b4-00c04fd430c8" = true := by
  refine ⟨?_, by decide, by decide⟩
  show ((Uuid.from_str s).isOk = true ↔ ∃ u : Uuid, Uuid.from_str s = Except.ok u)
  cases hc : parseCanonical s.toList with
  | none =>
      have hc' : parseCanonical s.data = none := hc
      constructor
      · intro h
        exact absurd h (by simp [Uuid.from_str, hc', Except.isOk, Except.toBool])
      · intro hu
        obtain ⟨u, hu⟩ := hu
        rw [show Uuid.from_str s = Except.error "invalid UUID string" from
          by simp [Uuid.from_str, hc']] at hu
        cases hu
  | some u =>
      have hc' : parseCanonical s.data = some u := hc
      constructor
      · intro _
        exact ⟨u, by simp [Uuid.from_str, hc']⟩
      · intro _
        simp [Uuid.from_str, hc', Except.isOk, Except.toBool]

theorem length_hexChars (bs : List Byte) : (hexChars bs).length = 2 * bs.length := by
  induction bs with
  | nil => rfl
  | cons b bs ih =>
      simp only [hexChars, List.length_cons, ih]
      omega

theorem isLowerHex_hexDigit : ∀ d : Fin 16, isLowerHex (hexDigit d.val) = true := by
  decide

theorem hexChars_lower (bs : List Byte) : ∀ c ∈ hexChars bs, isLowerHex c = true := by
  induction bs with
  | nil => intro c hc; cases hc
  | cons b bs ih =>
      intro c hc
      simp only [hexChars, List.mem_cons] at hc
      rcases hc with h | h | h
      · subst h
        exact isLowerHex_hexDigit ⟨b.val / 16, by have := b.isLt; omega⟩
      · subst h
        exact isLowerHex_hexDigit ⟨b.val % 16, by omega⟩
      · exact ih c h

theorem getD_append_length (l t : List Char) (c d : Char) (k : Nat) (hk : l.length = k) :
    (l ++ (c :: t)).getD k d = c := by
  subst hk
  induction l with
  | nil => rfl
  | cons a l ih =>
      simp only [List.cons_append, List.length_cons, List.getD_cons_succ]
      exact ih

/-- C9: the canonical text rendering is 36 characters, with hyphens at
indices 8, 13, 18 and 23, and splits as five groups of 8, 4, 4, 4 and 12
characters, every one a lowercase hexadecimal digit — never uppercase,
never braces. -/
theorem canonical_format (u : Uuid) :
    (PyUuid.str u).length = 36
  ∧ (PyUuid.str u).toList.getD 8 ' ' = '-'
  ∧ (PyUuid.str u).toList.getD 13 ' ' = '-'
  ∧ (PyUuid.str u).toList.getD 18 ' ' = '-'
  ∧ (PyUuid.str u).toList.getD 23 ' ' = '-'
  ∧ ∃ g1 g2 g3 g4 g5 : List Char,
      (PyUuid.str u).toList =
        g1 ++ ('-' :: (g2 ++ ('-' :: (g3 ++ ('-' :: (g4 ++ ('-' :: g5)))))))
      ∧ g1.length = 8 ∧ g2.length = 4 ∧ g3.length = 4 ∧ g4.length = 4 ∧ g5.length = 12
      ∧ (∀ c ∈ g1, isLowerHex c = true)
      ∧ (∀ c ∈ g2, isLowerHex c = true)
      ∧ (∀ c ∈ g3, isLowerHex c = true)
      ∧ (∀ c ∈ g4, isLowerHex c = true)
      ∧ (∀ c ∈ g5, isLowerHex c = true) := by
  obtain ⟨l, hl⟩ := u
  have hg1 : (hexChars (l.take 4)).length = 8 := by
    rw [length_hexChars, List.length_take, hl]
    norm_num
  have hg2 : (hexChars ((l.drop 4).take 2)).length = 4 := by
    rw [length_hexChars, List.length_take, List.length_drop, hl]
    norm_num
  have hg3 : (hexChars ((l.drop 6).take 2)).length = 4 := by
    rw [length_hexChars, List.length_take, List.length_drop, hl]
    norm_num
  have hg4 : (hexChars ((l.drop 8).take 2)).length = 4 := by
    rw [length_hexChars, List.length_take, List.length_drop, hl]
    norm_num
  have hg5 : (hexChars (l.drop 10)).length = 12 := by
    rw [length_hexChars, List.length_drop, hl]
  have hts : (PyUuid.str ⟨l, hl⟩).toList =
      hexChars (l.take 4) ++
        ('-' :: (hexChars ((l.drop 4).take 2) ++
          ('-' :: (hexChars ((l.drop 6).take 2) ++
            ('-' :: (hexChars ((l.drop 8).take 2) ++
              ('-' :: hexChars (l.drop 10)))))))) := rfl
  have e13 : (PyUuid.str ⟨l, hl⟩).toList =
      (hexChars (l.take 4) ++ '-' :: hexChars ((l.drop 4).take 2)) ++
        ('-' :: (hexChars ((l.drop 6).take 2) ++
          ('-' :: (hexChars ((l.drop 8).take 2) ++
            ('-' :: hexChars (l.drop 10)))))) := by
    rw [hts]
    simp [List.append_assoc]
  have e18 : (PyUuid.str ⟨l, hl⟩).toList =
      ((hexChars (l.take 4) ++ '-' :: hexChars ((l.drop 4).take 2)) ++
        '-' :: hexChars ((l.drop 6).take 2)) ++
        ('-' :: (hexChars ((l.drop 8).take 2) ++
          ('-' :: hexChars (l.drop 10)))) := by
    rw [hts]
    simp [List.append_assoc]
  have e23 : (PyUuid.str ⟨l, hl⟩).toList =
      (((hexChars (l.take 4) ++ '-' :: hexChars ((l.drop 4).take 2)) ++
        '-' :: hexChars ((l.drop 6).take 2)) ++
        '-' :: hexChars ((l.drop 8).take 2)) ++
        ('-' :: hexChars (l.drop 10)) := by
    rw [hts]
    simp [List.append_assoc]
  refine ⟨?_, ?_, ?_, ?_, ?_, ?_⟩
  · show ((PyUuid.str ⟨l, hl⟩).toList).length = 36
    rw [hts]
    simp only [List.length_append, List.length_cons, hg1, hg2, hg3, hg4, hg5]
  · rw [hts]
    exact getD_append_length _ _ '-' ' ' 8 hg1
  · rw [e13]
    refine getD_append_length _ _ '-' ' ' 13 ?_
    simp only [List.length_append, List.length_cons, hg1, hg2]
  · rw [e18]
    refine getD_append_length _ _ '-' ' ' 18 ?_
    simp only [List.length_append, List.length_cons, hg1, hg2, hg3]
  · rw [e23]
    refine getD_append_length _ _ '-' ' ' 23 ?_
    simp only [List.length_append, List.length_cons, hg1, hg2, hg3, hg4]
  · exact ⟨hexChars (l.take 4), hexChars ((l.drop 4).take 2),
      hexChars ((l.drop 6).take 2), hexChars ((l.drop 8).take 2),
      hexChars (l.drop 10), hts, hg1, hg2, hg3, hg4, hg5,
      hexChars_lower _, hexChars_lower _, hexChars_lower _,
      hexChars_lower _, hexChars_lower _⟩

/-- Witness for C1: the stub returns no version on a concrete value. -/
theorem version_stub_diverges_witness :
    PyUuid.version (uuidWithByte 0 (0 : Byte)) = none :=
  version_stub_diverges.1 (uuidWithByte 0 (0 : Byte))

/-- Witness for C4 at a concrete value. -/
theorem uuid_roundtrips_witness :
    PyUuid.from_u128 (PyUuid.as_u128 (uuidWithByte 0 (0 : Byte))) = uuidWithByte 0 (0 : Byte) :=
  (uuid_roundtrips (uuidWithByte 0 (0 : Byte))).2.2

/-- Witness for C5: equality holds reflexively on a concrete value. -/
theorem ordering_total_witness :
    PyUuid.eq (uuidWithByte 0 (0 : Byte)) (uuidWithByte 0 (0 : Byte)) = true :=
  (ordering_total (uuidWithByte 0 (0 : Byte)) (uuidWithByte 0 (0 : Byte))).2.2.2.2.mpr rfl

/-- Witness for C8: the DNS namespace rendering is valid. -/
theorem is_valid_iff_witness :
    is_valid "6ba7b810-9dad-11d1-80b4-00c04fd430c8" = true :=
  (is_valid_iff "6ba7b810-9dad-11d1-80b4-00c04fd430c8").2.2

/-- Witness for C9: the rendering of a concrete value is 36 characters. -/
theorem canonical_format_witness :
    (PyUuid.str (uuidWithByte 0 (0 : Byte))).length = 36 :=
  (canonical_format (uuidWithByte 0 (0 : Byte))).1
